import Mathlib

/-!
Verification development for the las-terrain-generator repository.

The Rust sources under src/ are shallowly embedded below:
  * src/core.rs      : tile coordinates, areas of interest and their iterator;
  * src/requester.rs : range filtering, deduplication, block fallback and the
    fetch pipeline that assembles LazData records;
  * src/computer.rs  : global height bounds, the pre-blur rasterization loop,
    coordinate naming and the run-level metadata record.

Machine integers are modelled as Nat / Int with explicit two-complement
wrapping where the Rust arithmetic can overflow; f64 values are modelled as
exact rationals; fallible operations return Option or Except.  Panics are
modelled as the none / error case of the surrounding operation.
-/

namespace LasTerrain

/-- A tile coordinate, modelling the Rust pair struct with two i16 fields
declared in src/core.rs. -/
abbrev Point := Int × Int

/-- Two-complement wrapping into the i16 range, the release-mode semantics of
overflowing i16 arithmetic. -/
def wrap16 (z : Int) : Int := (z + 32768) % 65536 - 32768

/-- An area of interest: a center tile plus a u8 radius (src/core.rs). -/
structure CorePoint where
  center : Point
  radius : Nat

/-- The state of the area iterator from src/core.rs: a start corner, the
current (x, y) index pair and the side length of the square.  The index
fields are u8 in the source; for every state reachable from (0, 0) with
side_dimension at most 255 their values stay at most 255, so plain Nat
arithmetic computes identically. -/
structure CorePointIterState where
  start_position : Int × Int
  current_position_index : Nat × Nat
  side_dimension : Nat

/-- One step of the iterator, a direct transcription of the next method of
CorePointIterator in src/core.rs.  The emitted point adds the index to the
start corner with i16 arithmetic, hence the wrap. -/
def iterNext (s : CorePointIterState) : Option (Point × CorePointIterState) :=
  if s.side_dimension ≤ s.current_position_index.1 ∨
      s.side_dimension ≤ s.current_position_index.2 then
    none
  else
    let p : Point :=
      (wrap16 (s.start_position.1 + (s.current_position_index.1 : Int)),
       wrap16 (s.start_position.2 + (s.current_position_index.2 : Int)))
    let i := s.current_position_index.1 + 1
    if i % s.side_dimension = 0 then
      some (p, ⟨s.start_position, (0, s.current_position_index.2 + 1), s.side_dimension⟩)
    else
      some (p, ⟨s.start_position, (i, s.current_position_index.2), s.side_dimension⟩)

/-- Drive the iterator for at most fuel steps, collecting the emitted
points.  With fuel at least side_dimension squared this exhausts the
iterator. -/
def runIter : Nat → CorePointIterState → List Point
  | 0, _ => []
  | fuel + 1, s =>
    match iterNext s with
    | none => []
    | some (p, s2) => p :: runIter fuel s2

/-- u8 checked multiplication (src/core.rs uses checked_mul on the radius). -/
def checked_mul_u8 (a b : Nat) : Option Nat :=
  if a * b ≤ 255 then some (a * b) else none

/-- u8 checked addition. -/
def checked_add_u8 (a b : Nat) : Option Nat :=
  if a + b ≤ 255 then some (a + b) else none

/-- The saturating side length 2 * radius + 1 of an area, transcribed from
get_all_points_in_area in src/core.rs: on u8 overflow it falls back to
255. -/
def side_dimension (radius : Nat) : Nat :=
  (((checked_mul_u8 radius 2).bind fun prod => checked_add_u8 prod 1).or (some 255)).getD 0

/-- All tile coordinates of an area of interest, the list produced by fully
consuming the CorePointIterator returned by get_all_points_in_area in
src/core.rs. -/
def get_all_points_in_area (c : CorePoint) : List Point :=
  let sd := side_dimension c.radius
  runIter (sd * sd)
    ⟨(wrap16 (c.center.1 - (c.radius : Int)), wrap16 (c.center.2 - (c.radius : Int))),
     (0, 0), sd⟩

/-- Modelled from the spec: the repository module global_constants
(MIN_POINT_DIM) is not under src/.  The spec requires a bounded coordinate
range [min_dim, max_dim); the value mirrors the identically named constant
in src/main.rs. -/
def MIN_POINT_DIM : Int := 0

/-- Modelled from the spec: the repository module global_constants
(MAX_POINT_DIM) is not under src/.  The value mirrors the identically named
constant in src/main.rs. -/
def MAX_POINT_DIM : Int := 800

/-- First-occurrence deduplication with an accumulator of already seen
elements; models the itertools unique adapter used in src/requester.rs,
which keeps the first occurrence of each element. -/
def unique_aux {α : Type} [DecidableEq α] (seen : List α) : List α → List α
  | [] => []
  | x :: xs => if x ∈ seen then unique_aux seen xs else x :: unique_aux (x :: seen) xs

/-- The itertools unique adapter: keep the first occurrence of every
element, preserving order. -/
def uniqueList {α : Type} [DecidableEq α] (l : List α) : List α := unique_aux [] l

/-- The run configuration from src/core.rs (command line fields only). -/
structure Config where
  core_points : List CorePoint
  possible_blocks : List Nat
  blur_kernel_size : Nat
  sample_size : Nat
  resolution : Nat
  destination_folder : String

/-- The range test applied to each candidate point by filter_points in
src/requester.rs, in source order. -/
def in_valid_range (p : Point) : Bool :=
  decide (MIN_POINT_DIM ≤ p.1) && decide (MIN_POINT_DIM ≤ p.2) &&
    decide (p.1 < MAX_POINT_DIM) && decide (p.2 < MAX_POINT_DIM)

/-- filter_points from src/requester.rs: expand every area, keep the
in-range coordinates, deduplicate keeping first occurrences. -/
def filter_points (config : Config) : List Point :=
  uniqueList ((config.core_points.flatMap get_all_points_in_area).filter in_valid_range)

/-- A successfully fetched and parsed tile payload: the 3-D bounds and the
point list that the las Reader extracts from the body bytes.  The network
and the parser are external collaborators, abstracted as a resolver
function below. -/
structure TilePayload where
  bounds_min : ℚ × ℚ × ℚ
  bounds_max : ℚ × ℚ × ℚ
  points : List (ℚ × ℚ × ℚ)
deriving DecidableEq

/-- The abstract tile resolution function of the spec: coordinate and block
number to payload bytes (already parsed) or absence.  Absence covers every
transient failure branch of the fetch loop (request error, bad status,
unreadable body). -/
abbrev Resolver := Point → Nat → Option TilePayload

/-- An assembled tile, modelling the LazData struct of src/requester.rs. -/
structure LazData where
  offset_from_center : Int × Int
  bounds_max : ℚ × ℚ × ℚ
  bounds_min : ℚ × ℚ × ℚ
  points : List (ℚ × ℚ × ℚ)
deriving DecidableEq

/-- The inner block loop of get_laz_data (src/requester.rs lines 57-106):
try each block in order, stop at the first success (the break after the
channel send). -/
def try_blocks (resolve : Resolver) (p : Point) : List Nat → Option (Nat × TilePayload)
  | [] => none
  | b :: rest =>
    match resolve p b with
    | some payload => some (b, payload)
    | none => try_blocks resolve p rest

/-- The same block loop instrumented with the list of attempted blocks (the
source logs each URL before issuing the request, so an attempt is recorded
for every iteration that is entered). -/
def try_blocks_trace (resolve : Resolver) (p : Point) :
    List Nat → List Nat × Option (Nat × TilePayload)
  | [] => ([], none)
  | b :: rest =>
    match resolve p b with
    | some payload => ([b], some (b, payload))
    | none =>
      let t := try_blocks_trace resolve p rest
      (b :: t.1, t.2)

/-- Processing of one coordinate by a fetch worker: resolve it through the
block list and, on success, build the LazData record with the offset
relative to the origin (src/requester.rs lines 93-101).  All filtered
coordinates lie in [0, 800), so the i16 subtraction cannot overflow and is
modelled as exact integer subtraction. -/
def process_point (resolve : Resolver) (blocks : List Nat) (origin : Point)
    (p : Point) : Option LazData :=
  (try_blocks resolve p blocks).map fun r =>
    ⟨(p.1 - origin.1, p.2 - origin.2), r.2.bounds_max, r.2.bounds_min, r.2.points⟩

/-- get_laz_data from src/requester.rs, sequential model.  The origin is the
head of the filtered coordinate list, taken before any fetch; none models
the panic of the expect call on an empty list.  The result list is the
single-worker (cpus = 1) channel order; which coordinates succeed, and
every field of every record, are schedule-independent. -/
def get_laz_data (resolve : Resolver) (config : Config) : Option (List LazData) :=
  let pts := filter_points config
  match pts.head? with
  | none => none
  | some origin =>
    some (pts.filterMap (process_point resolve (uniqueList config.possible_blocks) origin))

/-- The strided index walk of one fetch worker (src/requester.rs lines
41-55 and 108-109): start at the worker id and repeatedly add the worker
count while below the list length.  Each iteration advances by at least one
when cpus is at least one, so a fuel of len bounds the iteration count. -/
def stride_indices_aux : Nat → Nat → Nat → Nat → List Nat
  | 0, _, _, _ => []
  | fuel + 1, cpus, len, idx =>
    if idx < len then idx :: stride_indices_aux fuel cpus len (idx + cpus) else []

/-- The indices of the coordinate list handled by worker id out of cpus
workers over a list of length len. -/
def worker_indices (cpus len id : Nat) : List Nat := stride_indices_aux len cpus len id

/-! ### src/computer.rs : height bounds, rasterization, naming, metadata -/

/-- The exact rational value of the f64 maximum (the fold seed of
get_height_bounds in src/computer.rs). -/
def fMAX : ℚ := (2 ^ 53 - 1) * 2 ^ 971

/-- The exact rational value of the f64 minimum. -/
def fMIN : ℚ := -fMAX

/-- The fold of get_height_bounds in src/computer.rs: running minimum of the
z lower bounds and maximum of the z upper bounds over all tiles, seeded with
the f64 extreme values. -/
def height_bounds_val (data : List LazData) : ℚ × ℚ :=
  data.foldl
    (fun acc sector =>
      (if sector.bounds_min.2.2 < acc.1 then sector.bounds_min.2.2 else acc.1,
       if acc.2 < sector.bounds_max.2.2 then sector.bounds_max.2.2 else acc.2))
    (fMAX, fMIN)

/-- get_height_bounds from src/computer.rs.  Its Result return type has no
error path in the source: it returns Ok unconditionally, also on an empty
slice and on degenerate bounds. -/
def get_height_bounds (data : List LazData) : Except String (ℚ × ℚ) :=
  Except.ok (height_bounds_val data)

/-- Height normalization of create_texture in src/computer.rs. -/
def normalize_height (min_h max_h z : ℚ) : ℚ := (z - min_h) / (max_h - min_h)

/-- The point_data array built by create_texture: x, y and the normalized
z of each tile point. -/
def point_data (min_h max_h : ℚ) (pts : List (ℚ × ℚ × ℚ)) : List (ℚ × ℚ × ℚ) :=
  pts.map fun p => (p.1, p.2.1, normalize_height min_h max_h p.2.2)

/-- Squared Euclidean distance in the x-y plane, the metric of the kiddo
query in create_texture. -/
def sq_dist (a b : ℚ × ℚ) : ℚ :=
  (a.1 - b.1) * (a.1 - b.1) + (a.2 - b.2) * (a.2 - b.2)

/-- The distance of indexed point i to the query point q. -/
def nn_key (pts : List (ℚ × ℚ)) (q : ℚ × ℚ) (i : Nat) : ℚ :=
  sq_dist (pts.getD i (0, 0)) q

/-- Comparison of point indices by squared distance to the query, breaking
ties by index.  This is the deterministic model of the order in which the
kiddo ImmutableKdTree returns the nearest neighbours. -/
def nn_order (pts : List (ℚ × ℚ)) (q : ℚ × ℚ) (a b : Nat) : Prop :=
  nn_key pts q a < nn_key pts q b ∨ (nn_key pts q a = nn_key pts q b ∧ a ≤ b)

instance (pts : List (ℚ × ℚ)) (q : ℚ × ℚ) : DecidableRel (nn_order pts q) :=
  fun a b => by unfold nn_order; infer_instance

/-- The k nearest point indices to the query q, by squared Euclidean
distance; models the nearest_n kd-tree query of create_texture (ties are
returned in index order). -/
def nearest_n (pts : List (ℚ × ℚ)) (q : ℚ × ℚ) (k : Nat) : List Nat :=
  (List.insertionSort (nn_order pts q) (List.range pts.length)).take k

/-- The world coordinate of pixel (i, j): the bounding-box minimum plus the
pixel fraction of the span, with the vertical axis flipped (row j uses the
fraction (R - j) / R, so row 0 maps to the maximum y). -/
def pixel_geo (data : LazData) (R : Nat) (i j : Nat) : ℚ × ℚ :=
  (data.bounds_min.1 + ((i : ℚ) / (R : ℚ)) * (data.bounds_max.1 - data.bounds_min.1),
   data.bounds_min.2.1 + (((R - j : Nat) : ℚ) / (R : ℚ)) *
     (data.bounds_max.2.1 - data.bounds_min.2.1))

/-- One iteration of the rasterization loop of create_texture
(src/computer.rs lines 116-138), transcribed for the linear buffer index of
the red channel of a pixel: recover (ind_x, ind_y) from the linear index,
flip the vertical axis, map to world coordinates, query the k nearest
neighbours and average their normalized heights.  The f64 and f32
arithmetic of the source is modelled as exact rational arithmetic. -/
def texel (config : Config) (data : LazData) (min_h max_h : ℚ)
    (linear_index : Nat) : ℚ :=
  let dim_x := config.resolution
  let dim_y := config.resolution
  let dim_x_adapted := dim_x * 3
  let pd := point_data min_h max_h data.points
  let pd_xy := pd.map fun p => (p.1, p.2.1)
  let ind_x := linear_index % dim_x_adapted
  let ind_y := dim_y - linear_index / dim_x_adapted
  let geo_x := ((ind_x : ℚ) / (dim_x_adapted : ℚ)) *
      (data.bounds_max.1 - data.bounds_min.1) + data.bounds_min.1
  let geo_y := ((ind_y : ℚ) / (dim_y : ℚ)) *
      (data.bounds_max.2.1 - data.bounds_min.2.1) + data.bounds_min.2.1
  let nn := nearest_n pd_xy (geo_x, geo_y) config.sample_size
  (nn.foldl (fun acc t => acc + (pd.getD t (0, 0, 0)).2.2) 0) /
    (config.sample_size : ℚ)

/-- The value the spec assigns to pixel (i, j): the arithmetic mean of the
normalized heights of the k points nearest to the pixel world
coordinate. -/
def spec_pixel_value (config : Config) (data : LazData) (min_h max_h : ℚ)
    (i j : Nat) : ℚ :=
  let pd := point_data min_h max_h data.points
  let nn := nearest_n (pd.map fun p => (p.1, p.2.1))
      (pixel_geo data config.resolution i j) config.sample_size
  ((nn.map fun t => (pd.getD t (0, 0, 0)).2.2).sum) / ((nn.length : ℚ))

/-- Decimal digits of a natural number, most significant first, as printed
by the Rust to_string method (zero prints as a single digit). -/
def natDigits (n : Nat) : List Nat :=
  if n = 0 then [0] else (Nat.digits 10 n).reverse

/-- The characters of get_coordinate_name in src/computer.rs: negative
offsets are printed as the letter n followed by the decimal digits of the
absolute value, nonnegative offsets as their decimal digits.  The i16 abs
of the source misbehaves on -32768 (panic in debug builds, wrap in release
builds); the model uses the mathematical absolute value and every theorem
below restricts to values above -32768, where the two agree. -/
def coord_chars (value : Int) : List Char :=
  if value < 0 then 'n' :: (natDigits value.natAbs).map Nat.digitChar
  else (natDigits value.toNat).map Nat.digitChar

/-- get_coordinate_name from src/computer.rs. -/
def get_coordinate_name (value : Int) : String := ⟨coord_chars value⟩

/-- The characters of the output file name img_x_y.exr built by
create_texture from the tile offset. -/
def img_file_chars (dx dy : Int) : List Char :=
  'i' :: 'm' :: 'g' :: '_' ::
    (coord_chars dx ++ '_' :: coord_chars dy ++ ['.', 'e', 'x', 'r'])

/-- The full output path written by create_texture (src/computer.rs lines
149-156). -/
def create_texture_path (config : Config) (d : LazData) : String :=
  config.destination_folder ++ "/" ++
    ⟨img_file_chars d.offset_from_center.1 d.offset_from_center.2⟩

/-- Read one decimal digit character. -/
def char_digit (c : Char) : Option Nat :=
  if '0' ≤ c ∧ c ≤ '9' then some (c.toNat - '0'.toNat) else none

/-- Parse a nonempty decimal digit string. -/
def parse_nat (cs : List Char) : Option Nat :=
  match cs with
  | [] => none
  | _ :: _ => cs.foldlM (fun acc c => (char_digit c).map fun d => acc * 10 + d) 0

/-- The reassembly convention for one coordinate component: a leading n
marks a negated decimal value. -/
def parse_coord (cs : List Char) : Option Int :=
  match cs with
  | [] => none
  | c :: rest =>
    if c = 'n' then (parse_nat rest).map fun (n : Nat) => -(n : Int)
    else (parse_nat (c :: rest)).map fun (n : Nat) => (n : Int)

/-- Split a character list at its first underscore. -/
def split_underscore : List Char → Option (List Char × List Char)
  | [] => none
  | c :: rest =>
    if c = '_' then some ([], rest)
    else (split_underscore rest).map fun pr => (c :: pr.1, pr.2)

/-- Remove a trailing .exr extension. -/
def strip_exr (cs : List Char) : Option (List Char) :=
  match cs.reverse with
  | c1 :: c2 :: c3 :: c4 :: rest =>
    if c1 = 'r' ∧ c2 = 'x' ∧ c3 = 'e' ∧ c4 = '.' then some rest.reverse else none
  | _ => none

/-- Parse an img_x_y.exr file name back into the (dx, dy) offset. -/
def decode_img_file_chars (cs : List Char) : Option (Int × Int) :=
  match cs with
  | c1 :: c2 :: c3 :: c4 :: rest =>
    if c1 = 'i' ∧ c2 = 'm' ∧ c3 = 'g' ∧ c4 = '_' then
      match split_underscore rest with
      | some (xs, ys) =>
        match strip_exr ys with
        | some ys2 =>
          match parse_coord xs, parse_coord ys2 with
          | some dx, some dy => some (dx, dy)
          | _, _ => none
        | none => none
      | none => none
    else none
  | _ => none

/-- The run-level metadata record serialized to config.json, modelling the
ComputeConfig struct of src/computer.rs. -/
structure ComputeConfig where
  texture_resolution : Nat
  max_height : ℚ
  min_height : ℚ
  real_world_dimensions_m : ℚ
deriving DecidableEq

/-- The observable output of one run of the compute phase: the list of
texture files written (one per tile, in tile order) and the single metadata
record written after the thread scope completes. -/
structure RunOutput where
  texture_files : List String
  meta : ComputeConfig
deriving DecidableEq

/-- compute_textures_parallel from src/computer.rs, modelled by its
observable effects.  Notes on fidelity: the thread scope chunks the tile
list but the chunks concatenate back to the whole list, so the set of
written textures is the per-tile map; the join call discards the Result
value of each chunk task, so per-tile errors never propagate; a zero
sample_size panics inside every create_texture call (NonZero unwrap) and
the join unwrap turns that panic into a run abort, modelled as the error
case; the metadata record is built and written only after the scope, from
the configured resolution, the computed bounds and the constant 1000.0
span. -/
def compute_textures_parallel (config : Config) (data : List LazData) :
    Except String RunOutput :=
  match get_height_bounds data with
  | Except.error e => Except.error e
  | Except.ok mm =>
    if data ≠ [] ∧ config.sample_size = 0 then
      Except.error "panic: sample size must be nonzero"
    else
      Except.ok
        ⟨data.map fun d => create_texture_path config d,
         ⟨config.resolution, mm.2, mm.1, 1000⟩⟩

/-! ### Lemmas about the area iterator -/

lemma wrap16_eq_self {z : Int} (h1 : -32768 ≤ z) (h2 : z ≤ 32767) : wrap16 z = z := by
  unfold wrap16; omega

lemma wrap16_add_left (a b : Int) : wrap16 (wrap16 a + b) = wrap16 (a + b) := by
  unfold wrap16; omega

lemma side_dimension_eq (r : Nat) :
    side_dimension r = if r ≤ 127 then 2 * r + 1 else 255 := by
  by_cases h : r ≤ 127
  · have h1 : r * 2 ≤ 255 := by omega
    have h2 : r * 2 ≤ 254 := by omega
    simp [side_dimension, checked_mul_u8, checked_add_u8, h, h1, h2]
    omega
  · have h1 : ¬ r * 2 ≤ 255 := by omega
    simp [side_dimension, checked_mul_u8, checked_add_u8, h, h1, Option.or]

lemma side_dimension_pos (r : Nat) : 0 < side_dimension r := by
  rw [side_dimension_eq]; split <;> omega

lemma runIter_succ_some {fuel : Nat} {s : CorePointIterState} {p : Point}
    {s2 : CorePointIterState} (h : iterNext s = some (p, s2)) :
    runIter (fuel + 1) s = p :: runIter fuel s2 := by
  rw [runIter, h]

/-- Fully running the iterator from the point numbered k enumerates the
remaining points in row-major order: point number k + t sits at column
(k + t) mod side and row (k + t) div side. -/
lemma runIter_eq (start : Int × Int) (side : Nat) (hside : 0 < side) :
    ∀ fuel k, side * side - k ≤ fuel →
      runIter fuel ⟨start, (k % side, k / side), side⟩ =
        (List.range (side * side - k)).map
          (fun t => ((wrap16 (start.1 + (((k + t) % side : Nat) : Int)),
                      wrap16 (start.2 + (((k + t) / side : Nat) : Int))) : Point)) := by
  intro fuel
  induction fuel with
  | zero =>
    intro k hk
    have h0 : side * side - k = 0 := by omega
    simp [runIter, h0]
  | succ fuel ih =>
    intro k hk
    by_cases hfin : side * side ≤ k
    · have h0 : side * side - k = 0 := by omega
      have hguard : side ≤ k / side := (Nat.le_div_iff_mul_le hside).2 hfin
      simp [runIter, iterNext, h0, hguard]
    · push_neg at hfin
      have hx : k % side < side := Nat.mod_lt _ hside
      have hy : k / side < side := (Nat.div_lt_iff_lt_mul hside).2 (by omega)
      have hguard : ¬ (side ≤ k % side ∨ side ≤ k / side) := by omega
      have hd := Nat.div_add_mod k side
      have hstep : (k + 1) % side = (if k % side + 1 = side then 0 else k % side + 1) ∧
          (k + 1) / side = (if k % side + 1 = side then k / side + 1 else k / side) := by
        by_cases hc : k % side + 1 = side
        · have hk1 : k + 1 = side * (k / side + 1) := by
            rw [Nat.mul_add, Nat.mul_one]; omega
          simp only [hc, if_pos rfl, hk1]
          exact ⟨Nat.mul_mod_right _ _, Nat.mul_div_cancel_left _ hside⟩
        · have hlt : k % side + 1 < side := by omega
          have hk1 : k + 1 = side * (k / side) + (k % side + 1) := by omega
          rw [if_neg hc, if_neg hc, hk1, Nat.mul_add_mod, Nat.mod_eq_of_lt hlt,
            Nat.mul_add_div hside, Nat.div_eq_of_lt hlt, Nat.add_zero]
          exact ⟨rfl, rfl⟩
      have hrange : side * side - k = (side * side - (k + 1)) + 1 := by omega
      rw [hrange, List.range_succ_eq_map, List.map_cons, List.map_map]
      by_cases hc : k % side + 1 = side
      · have hmod : (k % side + 1) % side = 0 := by rw [hc]; exact Nat.mod_self side
        have h1 : (k + 1) % side = 0 := by rw [hstep.1, if_pos hc]
        have h2 : (k + 1) / side = k / side + 1 := by rw [hstep.2, if_pos hc]
        have hnext : iterNext ⟨start, (k % side, k / side), side⟩ =
            some ((wrap16 (start.1 + ((k % side : Nat) : Int)),
                   wrap16 (start.2 + ((k / side : Nat) : Int))),
                  ⟨start, (0, k / side + 1), side⟩) := by
          unfold iterNext
          simp only [if_neg hguard, if_pos hmod]
        rw [runIter_succ_some hnext]
        have htail := ih (k + 1) (by omega)
        rw [h1, h2] at htail
        rw [htail]
        simp only [Nat.add_zero, List.cons.injEq]
        refine ⟨trivial, ?_⟩
        apply List.map_congr_left
        intro t _
        have hsh : k + Nat.succ t = k + 1 + t := by omega
        rw [Function.comp_apply, hsh]
      · have hlt : k % side + 1 < side := by omega
        have hmod : ¬ ((k % side + 1) % side = 0) := by
          rw [Nat.mod_eq_of_lt hlt]; omega
        have h1 : (k + 1) % side = k % side + 1 := by rw [hstep.1, if_neg hc]
        have h2 : (k + 1) / side = k / side := by rw [hstep.2, if_neg hc]
        have hnext : iterNext ⟨start, (k % side, k / side), side⟩ =
            some ((wrap16 (start.1 + ((k % side : Nat) : Int)),
                   wrap16 (start.2 + ((k / side : Nat) : Int))),
                  ⟨start, (k % side + 1, k / side), side⟩) := by
          unfold iterNext
          simp only [if_neg hguard, if_neg hmod]
        rw [runIter_succ_some hnext]
        have htail := ih (k + 1) (by omega)
        rw [h1, h2] at htail
        rw [htail]
        simp only [Nat.add_zero, List.cons.injEq]
        refine ⟨trivial, ?_⟩
        apply List.map_congr_left
        intro t _
        have hsh : k + Nat.succ t = k + 1 + t := by omega
        rw [Function.comp_apply, hsh]

/-- Closed form of the area list: side squared points in row-major order,
starting at the wrapped corner. -/
lemma area_points_eq (c : CorePoint) :
    get_all_points_in_area c =
      (List.range (side_dimension c.radius * side_dimension c.radius)).map
        (fun t => ((wrap16 (c.center.1 - (c.radius : Int) + ((t % side_dimension c.radius : Nat) : Int)),
                    wrap16 (c.center.2 - (c.radius : Int) + ((t / side_dimension c.radius : Nat) : Int))) : Point)) := by
  have hside := side_dimension_pos c.radius
  have h := runIter_eq
    (wrap16 (c.center.1 - (c.radius : Int)), wrap16 (c.center.2 - (c.radius : Int)))
    (side_dimension c.radius) hside
    (side_dimension c.radius * side_dimension c.radius) 0 (by omega)
  rw [Nat.zero_mod, Nat.zero_div] at h
  rw [get_all_points_in_area, h, Nat.sub_zero]
  apply List.map_congr_left
  intro t _
  rw [Nat.zero_add, wrap16_add_left, wrap16_add_left]

lemma area_points_length (c : CorePoint) :
    (get_all_points_in_area c).length =
      side_dimension c.radius * side_dimension c.radius := by
  rw [area_points_eq, List.length_map, List.length_range]

/-- A row-major linear enumeration of an m by n grid splits into rows. -/
lemma range_grid {β : Type} (n : Nat) (hn : 0 < n) (f : Nat → Nat → β) :
    ∀ m, (List.range (m * n)).map (fun t => f (t % n) (t / n)) =
      (List.range m).flatMap (fun j => (List.range n).map fun i => f i j) := by
  intro m
  induction m with
  | zero => simp
  | succ m ih =>
    rw [Nat.succ_mul, List.range_add, List.map_append, ih, List.range_succ,
      List.flatMap_append]
    congr 1
    simp only [List.flatMap_cons, List.flatMap_nil, List.append_nil, List.map_map]
    apply List.map_congr_left
    intro i hi
    have hi2 : i < n := List.mem_range.1 hi
    have h1 : (m * n + i) % n = i := by
      rw [Nat.mul_add_mod']
      exact Nat.mod_eq_of_lt hi2
    have h2 : (m * n + i) / n = m := by
      rw [Nat.mul_comm m n, Nat.mul_add_div hn, Nat.div_eq_of_lt hi2, Nat.add_zero]
    simp only [Function.comp_apply, h1, h2]

/-- C3 (amended): for radii up to 127 and centers whose area stays inside
the i16 range, the area of interest enumerates exactly the square from
(center.x - r, center.y - r) to (center.x + r, center.y + r) in row-major
order, with (2r+1)^2 pairwise distinct coordinates.  (For radii of 128 and
above the u8 side-length computation saturates at 255, see the
counterexample.) -/
theorem C3_area_enumeration (cx cy : Int) (r : Nat) (hr : r ≤ 127)
    (hx1 : -32768 ≤ cx - (r : Int)) (hx2 : cx + (r : Int) ≤ 32767)
    (hy1 : -32768 ≤ cy - (r : Int)) (hy2 : cy + (r : Int) ≤ 32767) :
    get_all_points_in_area ⟨(cx, cy), r⟩ =
      (List.range (2 * r + 1)).flatMap (fun (j : Nat) =>
        (List.range (2 * r + 1)).map fun (i : Nat) =>
          ((cx - (r : Int) + (i : Int), cy - (r : Int) + (j : Int)) : Point)) ∧
    (get_all_points_in_area ⟨(cx, cy), r⟩).length = (2 * r + 1) ^ 2 ∧
    (get_all_points_in_area ⟨(cx, cy), r⟩).Nodup := by
  have hside : side_dimension r = 2 * r + 1 := by rw [side_dimension_eq, if_pos hr]
  have hpos : 0 < 2 * r + 1 := by omega
  have heq : get_all_points_in_area ⟨(cx, cy), r⟩ =
      (List.range ((2 * r + 1) * (2 * r + 1))).map
        (fun t => ((cx - (r : Int) + ((t % (2 * r + 1) : Nat) : Int),
                    cy - (r : Int) + ((t / (2 * r + 1) : Nat) : Int)) : Point)) := by
    rw [area_points_eq]
    simp only [hside]
    apply List.map_congr_left
    intro t ht
    have hm : t % (2 * r + 1) < 2 * r + 1 := Nat.mod_lt _ hpos
    have ht2 : t < (2 * r + 1) * (2 * r + 1) := List.mem_range.1 ht
    have hdv : t / (2 * r + 1) < 2 * r + 1 := (Nat.div_lt_iff_lt_mul hpos).2 ht2
    generalize hA : t % (2 * r + 1) = A at hm ⊢
    generalize hB : t / (2 * r + 1) = B at hdv ⊢
    rw [wrap16_eq_self (by omega) (by omega), wrap16_eq_self (by omega) (by omega)]
  refine ⟨?_, ?_, ?_⟩
  · rw [heq]
    exact range_grid (2 * r + 1) hpos
      (fun i j => ((cx - (r : Int) + (i : Int), cy - (r : Int) + (j : Int)) : Point))
      (2 * r + 1)
  · rw [heq, List.length_map, List.length_range]; ring
  · rw [heq]
    apply List.Nodup.map_on _ (List.nodup_range _)
    intro t1 h1 t2 h2 hf
    simp only [Prod.mk.injEq] at hf
    obtain ⟨ha, hb⟩ := hf
    have ha2 : t1 % (2 * r + 1) = t2 % (2 * r + 1) := Nat.cast_inj.mp (add_left_cancel ha)
    have hb2 : t1 / (2 * r + 1) = t2 / (2 * r + 1) := Nat.cast_inj.mp (add_left_cancel hb)
    calc t1 = (2 * r + 1) * (t1 / (2 * r + 1)) + t1 % (2 * r + 1) :=
          (Nat.div_add_mod t1 (2 * r + 1)).symm
      _ = (2 * r + 1) * (t2 / (2 * r + 1)) + t2 % (2 * r + 1) := by rw [ha2, hb2]
      _ = t2 := Nat.div_add_mod t2 (2 * r + 1)

/-- C3 witness: the area around (0, 0) with radius 1 satisfies the
hypotheses of the enumeration theorem and has 9 distinct points. -/
theorem C3_area_enumeration_witness :
    ((1 : Nat) ≤ 127 ∧ -32768 ≤ (0 : Int) - ((1 : Nat) : Int) ∧
      (0 : Int) + ((1 : Nat) : Int) ≤ 32767) ∧
    (get_all_points_in_area ⟨((0 : Int), (0 : Int)), 1⟩).length = (2 * 1 + 1) ^ 2 ∧
    (get_all_points_in_area ⟨((0 : Int), (0 : Int)), 1⟩).Nodup :=
  ⟨⟨by decide, by decide, by decide⟩,
    (C3_area_enumeration 0 0 1 (by decide) (by decide) (by decide) (by decide)
      (by decide)).2⟩

/-- C3 counterexample: at radius 128 (a valid u8 radius) the side-length
computation saturates to 255, so the area yields 255 * 255 = 65025
coordinates, not (2 * 128 + 1)^2 = 66049 as the claim requires for every
radius. -/
theorem C3_counterexample :
    (get_all_points_in_area ⟨((0 : Int), (0 : Int)), 128⟩).length ≠ (2 * 128 + 1) ^ 2 := by
  rw [area_points_length]
  norm_num [side_dimension_eq]

/-! ### Deduplication lemmas and the range filter (C6) -/

lemma mem_unique_aux {α : Type} [DecidableEq α] (x : α) :
    ∀ (l seen : List α), x ∈ unique_aux seen l ↔ x ∈ l ∧ x ∉ seen := by
  intro l
  induction l with
  | nil => intro seen; simp [unique_aux]
  | cons y ys ih =>
    intro seen
    by_cases hy : y ∈ seen
    · rw [unique_aux, if_pos hy, ih]
      constructor
      · rintro ⟨h1, h2⟩
        exact ⟨List.mem_cons_of_mem _ h1, h2⟩
      · rintro ⟨h1, h2⟩
        rcases List.mem_cons.1 h1 with rfl | h1
        · exact absurd hy h2
        · exact ⟨h1, h2⟩
    · rw [unique_aux, if_neg hy]
      constructor
      · intro hx
        rcases List.mem_cons.1 hx with rfl | hx
        · exact ⟨List.mem_cons_self _ _, hy⟩
        · have h3 := (ih (y :: seen)).1 hx
          exact ⟨List.mem_cons_of_mem _ h3.1,
            fun hs => h3.2 (List.mem_cons_of_mem _ hs)⟩
      · rintro ⟨h1, h2⟩
        rcases List.mem_cons.1 h1 with rfl | h1
        · exact List.mem_cons_self _ _
        · by_cases hxy : x = y
          · subst hxy; exact List.mem_cons_self _ _
          · refine List.mem_cons_of_mem _ ((ih (y :: seen)).2 ⟨h1, ?_⟩)
            intro hs
            rcases List.mem_cons.1 hs with h | h
            · exact hxy h
            · exact h2 h

lemma nodup_unique_aux {α : Type} [DecidableEq α] :
    ∀ (l seen : List α), (unique_aux seen l).Nodup := by
  intro l
  induction l with
  | nil => intro seen; simp [unique_aux]
  | cons y ys ih =>
    intro seen
    by_cases hy : y ∈ seen
    · rw [unique_aux, if_pos hy]; exact ih seen
    · rw [unique_aux, if_neg hy, List.nodup_cons]
      refine ⟨?_, ih (y :: seen)⟩
      intro hmem
      exact ((mem_unique_aux y ys (y :: seen)).1 hmem).2 (List.mem_cons_self _ _)

lemma mem_uniqueList {α : Type} [DecidableEq α] (x : α) (l : List α) :
    x ∈ uniqueList l ↔ x ∈ l := by
  rw [uniqueList, mem_unique_aux]
  simp

lemma nodup_uniqueList {α : Type} [DecidableEq α] (l : List α) :
    (uniqueList l).Nodup := nodup_unique_aux l []

/-- C6: the coordinate list handed to the fetcher is exactly the set union
of the per-area coordinates restricted to the valid range: a point is in
filter_points iff both components lie in [MIN_POINT_DIM, MAX_POINT_DIM)
and some requested area contains it, and the list has no duplicates. -/
theorem C6_filter_points_union (config : Config) :
    (∀ p : Point, p ∈ filter_points config ↔
      ((MIN_POINT_DIM ≤ p.1 ∧ MIN_POINT_DIM ≤ p.2 ∧
        p.1 < MAX_POINT_DIM ∧ p.2 < MAX_POINT_DIM) ∧
       ∃ cp ∈ config.core_points, p ∈ get_all_points_in_area cp)) ∧
    (filter_points config).Nodup := by
  constructor
  · intro p
    rw [filter_points, mem_uniqueList, List.mem_filter, List.mem_flatMap]
    simp only [in_valid_range, Bool.and_eq_true, decide_eq_true_eq]
    tauto
  · exact nodup_uniqueList _

/-! ### The strided worker partition (C9) -/

lemma mem_stride_aux (cpus len : Nat) (hc : 1 ≤ cpus) (i : Nat) :
    ∀ fuel idx, len ≤ idx + fuel →
      (i ∈ stride_indices_aux fuel cpus len idx ↔
        ∃ t, i = idx + t * cpus ∧ i < len) := by
  intro fuel
  induction fuel with
  | zero =>
    intro idx hlen
    simp only [stride_indices_aux, List.not_mem_nil, false_iff]
    rintro ⟨t, heq, hlt⟩
    have hge : idx ≤ i := heq ▸ Nat.le_add_right _ _
    omega
  | succ fuel ih =>
    intro idx hlen
    by_cases hidx : idx < len
    · rw [stride_indices_aux, if_pos hidx, List.mem_cons,
        ih (idx + cpus) (by omega)]
      constructor
      · rintro (rfl | ⟨t, heq, hlt⟩)
        · exact ⟨0, by omega, hidx⟩
        · exact ⟨t + 1, by rw [heq]; ring, hlt⟩
      · rintro ⟨t, heq, hlt⟩
        cases t with
        | zero => left; omega
        | succ t => right; exact ⟨t, by rw [heq]; ring, hlt⟩
    · rw [stride_indices_aux, if_neg hidx]
      simp only [List.not_mem_nil, false_iff]
      rintro ⟨t, heq, hlt⟩
      have hge : idx ≤ i := heq ▸ Nat.le_add_right _ _
      omega

lemma nodup_stride_aux (cpus len : Nat) (hc : 1 ≤ cpus) :
    ∀ fuel idx, len ≤ idx + fuel → (stride_indices_aux fuel cpus len idx).Nodup := by
  intro fuel
  induction fuel with
  | zero => intro idx hlen; simp [stride_indices_aux]
  | succ fuel ih =>
    intro idx hlen
    by_cases hidx : idx < len
    · rw [stride_indices_aux, if_pos hidx, List.nodup_cons]
      refine ⟨?_, ih (idx + cpus) (by omega)⟩
      intro hmem
      obtain ⟨t, heq, _⟩ :=
        (mem_stride_aux cpus len hc idx fuel (idx + cpus) (by omega)).1 hmem
      have hge : idx + cpus ≤ idx + cpus + t * cpus := Nat.le_add_right _ _
      rw [← heq] at hge
      omega
    · rw [stride_indices_aux, if_neg hidx]
      exact List.nodup_nil

/-- C9: for every worker count N of at least one and every coordinate list
length L, the strided assignment partitions the indices below L: each
index is handled by exactly one worker, and no worker visits an index
twice. -/
theorem C9_stride_partition (N L : Nat) (hN : 1 ≤ N) :
    (∀ i, i < L → ∃! id, id < N ∧ i ∈ worker_indices N L id) ∧
    (∀ id, (worker_indices N L id).Nodup) := by
  constructor
  · intro i hi
    refine ⟨i % N, ⟨Nat.mod_lt _ (by omega), ?_⟩, ?_⟩
    · rw [worker_indices, mem_stride_aux N L hN i L (i % N) (by omega)]
      exact ⟨i / N, (Nat.mod_add_div' i N).symm, hi⟩
    · rintro id ⟨hid, hmem⟩
      rw [worker_indices, mem_stride_aux N L hN i L id (by omega)] at hmem
      obtain ⟨t, heq, _⟩ := hmem
      rw [heq, Nat.add_mul_mod_self_right, Nat.mod_eq_of_lt hid]
  · intro id
    exact nodup_stride_aux N L hN L id (by omega)

/-- C9 witness: with two workers over five coordinates, index 3 is handled
by exactly one worker and worker 1 visits no index twice. -/
theorem C9_stride_partition_witness :
    (1 : Nat) ≤ 2 ∧ (∃! id, id < 2 ∧ 3 ∈ worker_indices 2 5 id) ∧
      (worker_indices 2 5 1).Nodup :=
  ⟨by decide, (C9_stride_partition 2 5 (by decide)).1 3 (by decide),
    (C9_stride_partition 2 5 (by decide)).2 1⟩

/-! ### The fetch pipeline (C10, C5, C1) -/

/-- C10: get_laz_data panics (modelled as none) exactly when the filtered
coordinate list is empty; whenever at least one requested coordinate
survives the range filter it returns a tile list. -/
theorem C10_get_laz_data_panics_iff_empty (resolve : Resolver) (config : Config) :
    get_laz_data resolve config = none ↔ filter_points config = [] := by
  simp only [get_laz_data]
  cases h : (filter_points config).head? with
  | none =>
    simp only [h]
    exact iff_of_true trivial (List.head?_eq_none_iff.1 h)
  | some o =>
    simp only [h]
    refine iff_of_false (by simp) fun hnil => ?_
    rw [hnil] at h
    simp at h

/-- C5: first success wins.  If every block before b fails for the tile p
and b succeeds, the fetch loop attempts exactly the failing prefix followed
by b — no block after b is tried — and the payload of the tile comes from
b. -/
theorem C5_first_success_wins (resolve : Resolver) (p : Point)
    (pre post : List Nat) (b : Nat) (v : TilePayload)
    (hpre : ∀ b2 ∈ pre, resolve p b2 = none) (hb : resolve p b = some v) :
    try_blocks_trace resolve p (pre ++ b :: post) = (pre ++ [b], some (b, v)) ∧
    try_blocks resolve p (pre ++ b :: post) = some (b, v) := by
  induction pre with
  | nil =>
    constructor
    · simp [try_blocks_trace, hb]
    · simp [try_blocks, hb]
  | cons c cs ih =>
    have hc : resolve p c = none := hpre c (List.mem_cons_self _ _)
    have ih2 := ih fun b2 hb2 => hpre b2 (List.mem_cons_of_mem _ hb2)
    constructor
    · simp only [List.cons_append, try_blocks_trace, hc, List.append_eq, ih2.1]
    · simp only [List.cons_append, try_blocks, hc, List.append_eq, ih2.2]

/-- Resolver for the C5 witness: only block 2 has the tile. -/
def resolve_w5 : Resolver := fun _ bl =>
  if bl = 2 then some ⟨(0, 0, 0), (0, 0, 0), []⟩ else none

/-- C5 witness: with blocks 1, 2, 3 where 1 fails and 2 succeeds, blocks 1
and 2 are attempted, block 3 is not, and the payload comes from block 2. -/
theorem C5_first_success_wins_witness :
    try_blocks_trace resolve_w5 ((0 : Int), (0 : Int)) [1, 2, 3] =
      ([1, 2], some (2, ⟨(0, 0, 0), (0, 0, 0), []⟩)) ∧
    try_blocks resolve_w5 ((0 : Int), (0 : Int)) [1, 2, 3] =
      some (2, ⟨(0, 0, 0), (0, 0, 0), []⟩) :=
  C5_first_success_wins resolve_w5 ((0 : Int), (0 : Int)) [1] [3] 2
    ⟨(0, 0, 0), (0, 0, 0), []⟩ (by decide) (by decide)

/-- C1 (amended): the coordinate origin is the head of the filtered
coordinate list, fixed before any fetch; every tile in the result of
get_laz_data carries the offset (tile.x - origin.x, tile.y - origin.y);
and if the origin tile itself is assembled its offset is (0, 0).  (Whether
the origin is the first tile to complete assembly is refuted by the
counterexample.) -/
theorem C1_offsets_relative_to_list_head (resolve : Resolver) (config : Config)
    (l : List LazData) (h : get_laz_data resolve config = some l) :
    ∃ o, (filter_points config).head? = some o ∧
      l = (filter_points config).filterMap
        (process_point resolve (uniqueList config.possible_blocks) o) ∧
      (∀ p d, process_point resolve (uniqueList config.possible_blocks) o p = some d →
        d.offset_from_center = (p.1 - o.1, p.2 - o.2)) ∧
      (∀ d, process_point resolve (uniqueList config.possible_blocks) o o = some d →
        d.offset_from_center = (0, 0)) := by
  simp only [get_laz_data] at h
  cases hh : (filter_points config).head? with
  | none => rw [hh] at h; simp at h
  | some o =>
    rw [hh] at h
    simp only [Option.some.injEq] at h
    refine ⟨o, rfl, h.symm, ?_, ?_⟩
    · intro p d hpd
      simp only [process_point, Option.map_eq_some'] at hpd
      obtain ⟨r, _, rfl⟩ := hpd
      rfl
    · intro d hd
      simp only [process_point, Option.map_eq_some'] at hd
      obtain ⟨r, _, rfl⟩ := hd
      simp

/-- Resolver for the C1 witness: every tile is available in every block. -/
def resolve_w1 : Resolver := fun _ _ => some ⟨(0, 0, 0), (0, 0, 0), []⟩

/-- Configuration for the C1 witness: the single tile (0, 0). -/
def config_w1 : Config :=
  ⟨[⟨((0 : Int), (0 : Int)), 0⟩], [1], 10, 3, 1024, "out"⟩

/-- C1 witness: a concrete run in which the amended statement is
instantiated. -/
theorem C1_offsets_relative_to_list_head_witness :
    ∃ o, (filter_points config_w1).head? = some o ∧
      [(⟨(0, 0), (0, 0, 0), (0, 0, 0), []⟩ : LazData)] =
        (filter_points config_w1).filterMap
          (process_point resolve_w1 (uniqueList config_w1.possible_blocks) o) ∧
      (∀ p d, process_point resolve_w1 (uniqueList config_w1.possible_blocks) o p = some d →
        d.offset_from_center = (p.1 - o.1, p.2 - o.2)) ∧
      (∀ d, process_point resolve_w1 (uniqueList config_w1.possible_blocks) o o = some d →
        d.offset_from_center = (0, 0)) :=
  C1_offsets_relative_to_list_head resolve_w1 config_w1
    [⟨(0, 0), (0, 0, 0), (0, 0, 0), []⟩] (by decide)

/-- Resolver for the C1 counterexample: tile (1, 1) is available, every
other tile (in particular the origin tile (0, 0)) is missing from every
block. -/
def resolve_c1 : Resolver := fun p _ =>
  if p = ((1 : Int), (1 : Int)) then some ⟨(0, 0, 0), (0, 0, 0), []⟩ else none

/-- Configuration for the C1 counterexample: the tiles (0, 0) and (1, 1). -/
def config_c1 : Config :=
  ⟨[⟨((0 : Int), (0 : Int)), 0⟩, ⟨((1 : Int), (1 : Int)), 0⟩], [1], 10, 3, 1024, "out"⟩

/-- C1 counterexample: in this run exactly one tile is assembled, so that
tile is the first to complete assembly under every schedule — yet its
offset is (1, 1), not (0, 0).  The origin used by the code is the head of
the filtered list, tile (0, 0), which never completes assembly, refuting
the claim that the first tile to complete assembly establishes the origin
and carries offset (0, 0). -/
theorem C1_counterexample :
    (get_laz_data resolve_c1 config_c1).map (fun l => l.map fun d => d.offset_from_center) =
      some [((1 : Int), (1 : Int))] ∧
    ((1 : Int), (1 : Int)) ≠ (((0 : Int), (0 : Int)) : Int × Int) := by
  constructor
  · decide
  · decide

/-! ### File name encoding (C7) -/

lemma natDigits_ne_nil (n : Nat) : natDigits n ≠ [] := by
  rw [natDigits]
  split
  · simp
  · intro hcon
    rw [List.reverse_eq_nil_iff] at hcon
    exact (Nat.digits_ne_nil_iff_ne_zero.2 (by assumption)) hcon

lemma natDigits_lt (n : Nat) : ∀ d ∈ natDigits n, d < 10 := by
  intro d hd
  rw [natDigits] at hd
  split at hd
  · simp at hd; omega
  · rw [List.mem_reverse] at hd
    exact Nat.digits_lt_base (by norm_num) hd

lemma char_digit_digitChar : ∀ d : Nat, d < 10 →
    char_digit (Nat.digitChar d) = some d := by
  decide

lemma digitChar_ne : ∀ d : Nat, d < 10 →
    Nat.digitChar d ≠ 'n' ∧ Nat.digitChar d ≠ '_' := by
  decide

lemma foldlM_digits (ds : List Nat) (h : ∀ d ∈ ds, d < 10) :
    ∀ acc : Nat,
      List.foldlM (fun acc c => (char_digit c).map fun d => acc * 10 + d)
        acc (ds.map Nat.digitChar) =
      some (ds.foldl (fun a d => a * 10 + d) acc) := by
  induction ds with
  | nil => intro acc; simp
  | cons d ds ih =>
    intro acc
    have hd : d < 10 := h d (List.mem_cons_self _ _)
    have ih2 := ih (fun d2 h2 => h d2 (List.mem_cons_of_mem _ h2)) (acc * 10 + d)
    simp only [List.map_cons, List.foldlM_cons, char_digit_digitChar d hd,
      Option.map_some', Option.some_bind, List.foldl_cons]
    exact ih2

lemma foldr_ofDigits (l : List Nat) :
    List.foldr (fun d a => a * 10 + d) 0 l = Nat.ofDigits 10 l := by
  induction l with
  | nil => simp [Nat.ofDigits]
  | cons d ds ih => rw [List.foldr_cons, ih, Nat.ofDigits_cons]; ring

lemma parse_nat_natDigits (n : Nat) :
    parse_nat ((natDigits n).map Nat.digitChar) = some n := by
  by_cases h0 : n = 0
  · subst h0; decide
  · have hne := natDigits_ne_nil n
    have hstep : parse_nat ((natDigits n).map Nat.digitChar) =
        List.foldlM (fun acc c => (char_digit c).map fun d => acc * 10 + d) 0
          ((natDigits n).map Nat.digitChar) := by
      cases hd : natDigits n with
      | nil => exact absurd hd hne
      | cons d ds => rfl
    rw [hstep, foldlM_digits _ (natDigits_lt n) 0]
    congr 1
    rw [natDigits, if_neg h0, List.foldl_reverse]
    have : (fun (x : Nat) (y : Nat) => y * 10 + x) =
        (fun (d : Nat) (a : Nat) => a * 10 + d) := rfl
    rw [this, foldr_ofDigits, Nat.ofDigits_digits]

lemma parse_coord_coord_chars (v : Int) : parse_coord (coord_chars v) = some v := by
  by_cases hv : v < 0
  · rw [coord_chars, if_pos hv]
    rw [parse_coord]
    simp only [if_pos rfl, if_true, parse_nat_natDigits, Option.map_some',
      Option.some.injEq]
    omega
  · push_neg at hv
    rw [coord_chars, if_neg (not_lt.2 hv)]
    have hne := natDigits_ne_nil v.toNat
    obtain ⟨d, ds, hd⟩ : ∃ d ds, natDigits v.toNat = d :: ds := by
      cases h : natDigits v.toNat with
      | nil => exact absurd h hne
      | cons d ds => exact ⟨d, ds, rfl⟩
    have hdlt : d < 10 := natDigits_lt _ d (hd ▸ List.mem_cons_self _ _)
    rw [hd, List.map_cons, parse_coord, if_neg (digitChar_ne d hdlt).1,
      ← List.map_cons, ← hd, parse_nat_natDigits]
    simp only [Option.map_some', Option.some.injEq]
    omega

lemma underscore_not_in_coord_chars (v : Int) : '_' ∉ coord_chars v := by
  intro hmem
  rw [coord_chars] at hmem
  split at hmem
  · rcases List.mem_cons.1 hmem with h | h
    · exact absurd h (by decide)
    · obtain ⟨d, hd, hde⟩ := List.mem_map.1 h
      exact (digitChar_ne d (natDigits_lt _ d hd)).2 hde
  · obtain ⟨d, hd, hde⟩ := List.mem_map.1 hmem
    exact (digitChar_ne d (natDigits_lt _ d hd)).2 hde

lemma split_underscore_append (a b : List Char) (h : '_' ∉ a) :
    split_underscore (a ++ '_' :: b) = some (a, b) := by
  induction a with
  | nil => simp [split_underscore]
  | cons c cs ih =>
    have hc : ¬ (c = '_') := fun hh => h (by rw [hh]; exact List.mem_cons_self _ _)
    rw [List.cons_append, split_underscore, if_neg hc,
      ih fun hm => h (List.mem_cons_of_mem _ hm)]
    rfl

lemma strip_exr_append (m : List Char) :
    strip_exr (m ++ ['.', 'e', 'x', 'r']) = some m := by
  have hrev : (m ++ ['.', 'e', 'x', 'r']).reverse =
      'r' :: 'x' :: 'e' :: '.' :: m.reverse := by simp
  rw [strip_exr, hrev]
  simp

lemma decode_img (dx dy : Int) :
    decode_img_file_chars (img_file_chars dx dy) = some (dx, dy) := by
  have h1 := split_underscore_append (coord_chars dx)
    (coord_chars dy ++ ['.', 'e', 'x', 'r']) (underscore_not_in_coord_chars dx)
  have h2 := strip_exr_append (coord_chars dy)
  have h3 := parse_coord_coord_chars dx
  have h4 := parse_coord_coord_chars dy
  simp [img_file_chars, decode_img_file_chars, h1, h2, h3, h4]

/-- C7: the output file name is derived deterministically from the (dx, dy)
offset, negative components are encoded with the letter n instead of a
minus sign, and within the i16 offset range (excluding -32768, where the
i16 abs of the source is undefined behaviour) the encoding is unambiguous:
it round-trips through the reassembly parser and distinct offsets yield
distinct file names. -/
theorem C7_offset_naming (dx dy : Int)
    (hx1 : -32768 < dx) (hx2 : dx ≤ 32767) (hy1 : -32768 < dy) (hy2 : dy ≤ 32767) :
    decode_img_file_chars (img_file_chars dx dy) = some (dx, dy) ∧
    ∀ dx2 dy2 : Int, img_file_chars dx dy = img_file_chars dx2 dy2 →
      dx = dx2 ∧ dy = dy2 := by
  refine ⟨decode_img dx dy, ?_⟩
  intro dx2 dy2 heq
  have h1 := decode_img dx dy
  have h2 := decode_img dx2 dy2
  rw [heq, h2] at h1
  simp only [Option.some.injEq, Prod.mk.injEq] at h1
  exact ⟨h1.1.symm, h1.2.symm⟩

/-- C7 witness: the spec example offset (-3, 5) encodes to a name spelling
n3 and 5 and parses back to (-3, 5). -/
theorem C7_offset_naming_witness :
    decode_img_file_chars (img_file_chars (-3) 5) = some (-3, 5) :=
  (C7_offset_naming (-3) 5 (by decide) (by decide) (by decide) (by decide)).1

/-! ### The pre-blur raster (C4) -/

lemma foldl_add_sum (f : Nat → ℚ) (l : List Nat) :
    ∀ a : ℚ, l.foldl (fun acc t => acc + f t) a = a + (l.map f).sum := by
  induction l with
  | nil => intro a; simp
  | cons x xs ih =>
    intro a
    rw [List.foldl_cons, ih, List.map_cons, List.sum_cons]
    ring

lemma nearest_n_length (pts : List (ℚ × ℚ)) (q : ℚ × ℚ) (k : Nat)
    (hk : k ≤ pts.length) : (nearest_n pts q k).length = k := by
  rw [nearest_n, List.length_take, (List.perm_insertionSort _ _).length_eq,
    List.length_range]
  omega

/-- C4: for a tile with nondegenerate global bounds, a positive resolution
R and a sample size k between 1 and the number of tile points, the value
the rasterization loop stores for pixel (i, j) (at linear buffer index
3 * (j * R + i)) is the arithmetic mean of the normalized heights of the k
points nearest to the pixel world coordinate min + (pixel / R) * (max -
min), and the vertical flip maps image row 0 to the maximum-y row. -/
theorem C4_pre_blur_raster (config : Config) (data : LazData) (min_h max_h : ℚ)
    (hR : 0 < config.resolution) (hk1 : 1 ≤ config.sample_size)
    (hk2 : config.sample_size ≤ data.points.length) (hne : min_h ≠ max_h) :
    (∀ i j, i < config.resolution → j < config.resolution →
      texel config data min_h max_h (3 * (j * config.resolution + i)) =
        spec_pixel_value config data min_h max_h i j) ∧
    (pixel_geo data config.resolution 0 0).2 = data.bounds_max.2.1 := by
  constructor
  · intro i j hi hj
    have hmul : 3 * (j * config.resolution + i) = j * (config.resolution * 3) + 3 * i := by
      ring
    have hlt : 3 * i < config.resolution * 3 := by omega
    have hmod : (3 * (j * config.resolution + i)) % (config.resolution * 3) = 3 * i := by
      rw [hmul, Nat.mul_add_mod', Nat.mod_eq_of_lt hlt]
    have hdiv : (3 * (j * config.resolution + i)) / (config.resolution * 3) = j := by
      rw [hmul, Nat.mul_comm j (config.resolution * 3),
        Nat.mul_add_div (by omega), Nat.div_eq_of_lt hlt, Nat.add_zero]
    have hRQ : ((config.resolution : ℚ)) ≠ 0 := Nat.cast_ne_zero.2 (by omega)
    have hxy_len : (point_data min_h max_h data.points).length = data.points.length := by
      simp [point_data]
    simp only [texel, spec_pixel_value, pixel_geo, hmod, hdiv]
    have hgx : (((3 * i : Nat) : ℚ) / ((config.resolution * 3 : Nat) : ℚ)) *
          (data.bounds_max.1 - data.bounds_min.1) + data.bounds_min.1 =
        data.bounds_min.1 + ((i : Nat) : ℚ) / ((config.resolution : Nat) : ℚ) *
          (data.bounds_max.1 - data.bounds_min.1) := by
      push_cast
      field_simp
      ring
    have hgy : (((config.resolution - j : Nat) : ℚ) / ((config.resolution : Nat) : ℚ)) *
          (data.bounds_max.2.1 - data.bounds_min.2.1) + data.bounds_min.2.1 =
        data.bounds_min.2.1 + ((config.resolution - j : Nat) : ℚ) /
          ((config.resolution : Nat) : ℚ) * (data.bounds_max.2.1 - data.bounds_min.2.1) := by
      ring
    rw [hgx, hgy]
    rw [foldl_add_sum, zero_add]
    rw [nearest_n_length _ _ _ (by rw [List.length_map, hxy_len]; exact hk2)]
  · simp only [pixel_geo, Nat.sub_zero]
    have hRQ : ((config.resolution : ℚ)) ≠ 0 := Nat.cast_ne_zero.2 (by omega)
    field_simp

/-- Tile for the C4 witness: one point, unit square bounds. -/
def data_w4 : LazData := ⟨(0, 0), (10, 10, 10), (0, 0, 0), [(0, 0, 5)]⟩

/-- Configuration for the C4 witness: resolution 1, sample size 1. -/
def config_w4 : Config := ⟨[], [], 10, 1, 1, "out"⟩

/-- C4 witness: the raster theorem instantiated on a one-point tile at
resolution 1 with bounds 0 and 10. -/
theorem C4_pre_blur_raster_witness :
    (0 < config_w4.resolution ∧ 1 ≤ config_w4.sample_size ∧
      config_w4.sample_size ≤ data_w4.points.length ∧ (0 : ℚ) ≠ 10) ∧
    (∀ i j, i < config_w4.resolution → j < config_w4.resolution →
      texel config_w4 data_w4 0 10 (3 * (j * config_w4.resolution + i)) =
        spec_pixel_value config_w4 data_w4 0 10 i j) ∧
    (pixel_geo data_w4 config_w4.resolution 0 0).2 = data_w4.bounds_max.2.1 :=
  ⟨⟨by decide, by decide, by decide, by decide⟩,
    C4_pre_blur_raster config_w4 data_w4 0 10 (by decide) (by decide) (by decide)
      (by decide)⟩

/-! ### The compute phase and its metadata record (C2, C8) -/

/-- C8: with a positive sample size, compute_textures_parallel always
succeeds and returns one texture file per tile together with the single
metadata record whose resolution is the configured resolution, whose
min_height and max_height are the computed global height bounds, and whose
real-world span is the constant 1000 meters; the record is built only
after the thread scope over all tiles completes. -/
theorem C8_metadata_record (config : Config) (data : List LazData)
    (hs : 0 < config.sample_size) :
    compute_textures_parallel config data = Except.ok
      ⟨data.map fun d => create_texture_path config d,
       ⟨config.resolution, (height_bounds_val data).2, (height_bounds_val data).1, 1000⟩⟩ := by
  simp only [compute_textures_parallel, get_height_bounds]
  rw [if_neg]
  rintro ⟨_, h0⟩
  omega

/-- C8 witness: the metadata equation instantiated on an empty run. -/
theorem C8_metadata_record_witness :
    0 < (⟨[], [], 10, 1, 512, "out"⟩ : Config).sample_size ∧
    compute_textures_parallel ⟨[], [], 10, 1, 512, "out"⟩ [] = Except.ok
      ⟨[], ⟨512, (height_bounds_val []).2, (height_bounds_val []).1, 1000⟩⟩ :=
  ⟨by decide, C8_metadata_record ⟨[], [], 10, 1, 512, "out"⟩ [] (by decide)⟩

/-- C2 (code behaviour at the degenerate input): with zero assembled tiles
the run does not fail — get_height_bounds returns Ok with the inverted
sentinel bounds (f64 maximum as the minimum and f64 minimum as the
maximum, so max_height < min_height and in particular the bounds are
degenerate), no error is reported, and the metadata record is still
written.  This contradicts the claim that degenerate bounds are fatal and
that no output is written. -/
theorem C2_degenerate_bounds_not_fatal :
    compute_textures_parallel ⟨[], [], 10, 3, 1024, "out"⟩ [] =
      Except.ok ⟨[], ⟨1024, fMIN, fMAX, 1000⟩⟩ ∧
    get_height_bounds [] = Except.ok (fMAX, fMIN) ∧ fMIN < fMAX := by
  refine ⟨rfl, rfl, ?_⟩
  rw [fMIN, fMAX]
  norm_num

end LasTerrain
